import Mathlib

/-!
Verification of the track-resolution and playlist-reconciliation logic of
`bot_spotify.py` (Telegram → Spotify playlist bot).

Shallow embedding conventions:
* Python floats in the scoring code only ever hold sums of the constants
  1, 0.5, 0.25, 0.3, 0.75; they are modelled exactly as rationals (`ℚ`).
* Python `set`s of token strings are modelled as `Finset (List Char)`
  (a token is its list of characters).
* Fallible Python code (an expression that can raise) is modelled with
  `Option`: `none` is the raised exception.
* The paginated Spotify playlist read is modelled as the finite list of
  pages the API returns (the last page is the one with no `next` cursor);
  each item carries `Option String`, the value of
  `it.get("track", {}).get("id")` (which can be `None`).
* All functions are total and computable, so every statement can be checked
  on concrete inputs.
-/

namespace BotSpotify

/-! ## Text normalisation — `tokenize` (bot_spotify.py lines 74–77)

`_word_re = re.compile(r"[A-Za-zÁÉÍÓÚÜÑáéíóúüñ0-9]+")`
`def tokenize(s): return [w.lower() for w in _word_re.findall(s)]`
-/

/-- The character class of `_word_re`: ASCII letters and digits plus the
Spanish accented letters appearing in the regex. -/
def isWordChar (c : Char) : Bool :=
  ('A' ≤ c && c ≤ 'Z') || ('a' ≤ c && c ≤ 'z') || ('0' ≤ c && c ≤ '9') ||
    (['Á', 'É', 'Í', 'Ó', 'Ú', 'Ü', 'Ñ', 'á', 'é', 'í', 'ó', 'ú', 'ü', 'ñ'].contains c)

/-- Lowercasing table for the uppercase characters of `_word_re`'s class. -/
def lowerPairs : List (Char × Char) :=
  [('A', 'a'), ('B', 'b'), ('C', 'c'), ('D', 'd'), ('E', 'e'), ('F', 'f'),
   ('G', 'g'), ('H', 'h'), ('I', 'i'), ('J', 'j'), ('K', 'k'), ('L', 'l'),
   ('M', 'm'), ('N', 'n'), ('O', 'o'), ('P', 'p'), ('Q', 'q'), ('R', 'r'),
   ('S', 's'), ('T', 't'), ('U', 'u'), ('V', 'v'), ('W', 'w'), ('X', 'x'),
   ('Y', 'y'), ('Z', 'z'),
   ('Á', 'á'), ('É', 'é'), ('Í', 'í'), ('Ó', 'ó'), ('Ú', 'ú'), ('Ü', 'ü'),
   ('Ñ', 'ñ')]

/-- Python `str.lower` restricted to the characters of `_word_re`'s class,
the only characters `tokenize` ever lowercases (on the remaining word
characters — lowercase letters, accented lowercase letters, digits —
`lower` is the identity, as modelled by the fallback). -/
def lowerChar (c : Char) : Char :=
  ((lowerPairs.find? (fun p => p.1 == c)).map Prod.snd).getD c

theorem dropWhile_length_le (p : Char → Bool) (l : List Char) :
    (l.dropWhile p).length ≤ l.length := by
  induction l with
  | nil => simp
  | cons x xs ih =>
    rw [List.dropWhile_cons]
    split
    · exact Nat.le_succ_of_le ih
    · exact Nat.le_refl _

/-- Fuel-indexed worker for `wordsOf` (structural recursion on the fuel so
that the kernel can evaluate it; the fuel never runs out when it starts at
the length of the list). -/
def wordsOfGo : Nat → List Char → List (List Char)
  | _, [] => []
  | 0, _ :: _ => []
  | fuel + 1, c :: cs =>
    if isWordChar c then
      (c :: cs.takeWhile isWordChar) :: wordsOfGo fuel (cs.dropWhile isWordChar)
    else
      wordsOfGo fuel cs

/-- `re.findall` of `[wordchar]+`: the maximal runs of word characters of a
string, in order. -/
def wordsOf (l : List Char) : List (List Char) :=
  wordsOfGo l.length l

/-- `tokenize` on character lists: the maximal word-character runs,
lowercased. -/
def tokenizeL (l : List Char) : List (List Char) :=
  (wordsOf l).map (List.map lowerChar)

/-- `tokenize(s)` of bot_spotify.py (result tokens as strings). -/
def tokenize (s : String) : List String :=
  (tokenizeL s.data).map String.mk

/-- `set(tokenize(s))`, the Python token set used throughout `score_match`. -/
def tokSet (s : String) : Finset (List Char) :=
  (tokenizeL s.data).toFinset

/-- Joining a token list with single spaces: the canonical normalized form
whose re-tokenization the idempotence claim is about. -/
def joinSpace : List (List Char) → List Char
  | [] => []
  | [w] => w
  | w :: ws => w ++ ' ' :: joinSpace ws

/-! ### Lemmas about `wordsOf`, `lowerChar`, `isWordChar` -/

theorem lowerChar_self_or_value (c : Char) :
    lowerChar c = c ∨ lowerChar c ∈ lowerPairs.map Prod.snd := by
  rcases hf : lowerPairs.find? (fun p => p.1 == c) with _ | p
  · left
    simp [lowerChar, hf]
  · right
    have hp : lowerChar c = p.2 := by simp [lowerChar, hf]
    rw [hp]
    exact List.mem_map_of_mem Prod.snd (List.mem_of_find?_eq_some hf)

theorem lowerChar_idem (c : Char) : lowerChar (lowerChar c) = lowerChar c := by
  rcases lowerChar_self_or_value c with h | h
  · rw [h, h]
  · revert h
    have : ∀ d ∈ lowerPairs.map Prod.snd, lowerChar d = d := by decide
    exact this (lowerChar c)

theorem isWordChar_lowerChar {c : Char} (h : isWordChar c = true) :
    isWordChar (lowerChar c) = true := by
  rcases lowerChar_self_or_value c with h2 | h2
  · rw [h2]; exact h
  · revert h2
    have : ∀ d ∈ lowerPairs.map Prod.snd, isWordChar d = true := by decide
    exact this (lowerChar c)

theorem wordsOfGo_eq : ∀ (n : Nat) (l : List Char), l.length ≤ n →
    wordsOfGo n l = wordsOf l
  | 0, [] => fun _ => rfl
  | 0, _ :: _ => by
    intro h
    simp at h
  | _ + 1, [] => fun _ => rfl
  | n + 1, c :: cs => by
    intro h
    have hcs : cs.length ≤ n := by simpa using h
    show wordsOfGo (n + 1) (c :: cs) = wordsOfGo (c :: cs).length (c :: cs)
    simp only [wordsOfGo, List.length_cons]
    by_cases hc : isWordChar c = true
    · rw [if_pos hc, if_pos hc]
      congr 1
      calc wordsOfGo n (cs.dropWhile isWordChar)
          = wordsOf (cs.dropWhile isWordChar) :=
            wordsOfGo_eq n _ (le_trans (dropWhile_length_le _ _) hcs)
        _ = wordsOfGo cs.length (cs.dropWhile isWordChar) :=
            (wordsOfGo_eq cs.length _ (dropWhile_length_le _ _)).symm
    · rw [if_neg hc, if_neg hc]
      calc wordsOfGo n cs = wordsOf cs := wordsOfGo_eq n _ hcs
        _ = wordsOfGo cs.length cs := (wordsOfGo_eq cs.length _ (Nat.le_refl _)).symm
termination_by n l => n
decreasing_by
  all_goals omega

theorem wordsOf_nil : wordsOf [] = [] := rfl

theorem wordsOf_cons_not {c : Char} (hc : isWordChar c = false) (l : List Char) :
    wordsOf (c :: l) = wordsOf l := by
  show wordsOfGo (l.length + 1) (c :: l) = wordsOf l
  simp only [wordsOfGo, hc]
  exact wordsOfGo_eq l.length l (Nat.le_refl _)

theorem wordsOf_cons_word {c : Char} (hc : isWordChar c = true) (l : List Char) :
    wordsOf (c :: l) =
      (c :: l.takeWhile isWordChar) :: wordsOf (l.dropWhile isWordChar) := by
  show wordsOfGo (l.length + 1) (c :: l) = _
  simp only [wordsOfGo, hc, if_true]
  congr 1
  exact wordsOfGo_eq l.length _ (dropWhile_length_le _ _)

theorem takeWhile_of_all {p : Char → Bool} {l : List Char}
    (h : ∀ c ∈ l, p c = true) : l.takeWhile p = l := by
  induction l with
  | nil => simp
  | cons x xs ih =>
    rw [List.takeWhile_cons, if_pos (h x (by simp))]
    rw [ih (fun c hc => h c (List.mem_cons_of_mem x hc))]

theorem dropWhile_of_all {p : Char → Bool} {l : List Char}
    (h : ∀ c ∈ l, p c = true) : l.dropWhile p = [] := by
  induction l with
  | nil => simp
  | cons x xs ih =>
    rw [List.dropWhile_cons, if_pos (h x (by simp))]
    exact ih (fun c hc => h c (List.mem_cons_of_mem x hc))

theorem takeWhile_append_stop {p : Char → Bool} {c : Char} (hc : p c = false)
    (xs ys : List Char) : (xs ++ c :: ys).takeWhile p = xs.takeWhile p := by
  induction xs with
  | nil => simp [List.takeWhile_cons, hc]
  | cons x xs ih =>
    rw [List.cons_append, List.takeWhile_cons, List.takeWhile_cons, ih]

theorem dropWhile_append_stop {p : Char → Bool} {c : Char} (hc : p c = false)
    (xs ys : List Char) :
    (xs ++ c :: ys).dropWhile p = xs.dropWhile p ++ c :: ys := by
  induction xs with
  | nil => simp [List.dropWhile_cons, hc]
  | cons x xs ih =>
    rw [List.cons_append, List.dropWhile_cons, List.dropWhile_cons]
    split
    · exact ih
    · rfl

theorem mem_takeWhile_word {p : Char → Bool} {l : List Char} {c : Char}
    (h : c ∈ l.takeWhile p) : p c = true ∧ c ∈ l := by
  induction l with
  | nil => simp at h
  | cons x xs ih =>
    rw [List.takeWhile_cons] at h
    by_cases hx : p x = true
    · rw [if_pos hx] at h
      rcases List.mem_cons.mp h with rfl | h
      · exact ⟨hx, by simp⟩
      · exact ⟨(ih h).1, List.mem_cons_of_mem x (ih h).2⟩
    · rw [if_neg hx] at h
      simp at h

theorem mem_wordsOf : ∀ {l w : List Char}, w ∈ wordsOf l →
    w ≠ [] ∧ ∀ c ∈ w, isWordChar c = true
  | [], w => by
    intro h
    rw [wordsOf_nil] at h
    simp at h
  | c :: cs, w => by
    intro h
    by_cases hc : isWordChar c = true
    · rw [wordsOf_cons_word hc] at h
      rcases List.mem_cons.mp h with rfl | h
      · refine ⟨by simp, ?_⟩
        intro x hx
        rcases List.mem_cons.mp hx with rfl | hx
        · exact hc
        · exact (mem_takeWhile_word hx).1
      · exact mem_wordsOf h
    · rw [wordsOf_cons_not (by simpa using hc) cs] at h
      exact mem_wordsOf h
termination_by l w => l.length
decreasing_by
  all_goals simp only [List.length_cons]
  all_goals first
    | exact Nat.lt_succ_of_le (dropWhile_length_le _ _)
    | omega

theorem wordsOf_append_sep {c : Char} (hc : isWordChar c = false) :
    ∀ (xs : List Char) (ys : List Char),
      wordsOf (xs ++ c :: ys) = wordsOf xs ++ wordsOf ys
  | [], ys => by
    rw [List.nil_append, wordsOf_cons_not hc, wordsOf_nil, List.nil_append]
  | x :: xs2, ys => by
    by_cases hx : isWordChar x = true
    · rw [List.cons_append, wordsOf_cons_word hx, wordsOf_cons_word hx,
        takeWhile_append_stop hc, dropWhile_append_stop hc,
        wordsOf_append_sep hc (xs2.dropWhile isWordChar) ys, List.cons_append]
    · have hxf : isWordChar x = false := by simpa using hx
      rw [List.cons_append, wordsOf_cons_not hxf, wordsOf_cons_not hxf,
        wordsOf_append_sep hc xs2 ys]
termination_by xs ys => xs.length
decreasing_by
  all_goals simp only [List.length_cons]
  all_goals first
    | exact Nat.lt_succ_of_le (dropWhile_length_le _ _)
    | omega

theorem wordsOf_of_all {w : List Char} (h0 : w ≠ [])
    (h : ∀ c ∈ w, isWordChar c = true) : wordsOf w = [w] := by
  match w with
  | [] => exact absurd rfl h0
  | c :: cs =>
    rw [wordsOf_cons_word (h c (by simp)),
      takeWhile_of_all (fun d hd => h d (List.mem_cons_of_mem c hd)),
      dropWhile_of_all (fun d hd => h d (List.mem_cons_of_mem c hd)), wordsOf_nil]

theorem wordsOf_joinSpace {ts : List (List Char)}
    (h : ∀ w ∈ ts, w ≠ [] ∧ ∀ c ∈ w, isWordChar c = true) :
    wordsOf (joinSpace ts) = ts := by
  induction ts with
  | nil => exact wordsOf_nil
  | cons t ts ih =>
    rcases ts with _ | ⟨t', rest⟩
    · have ht := h t (by simp)
      simpa [joinSpace] using wordsOf_of_all ht.1 ht.2
    · have ht := h t (by simp)
      have step : joinSpace (t :: t' :: rest) = t ++ ' ' :: joinSpace (t' :: rest) := rfl
      rw [step, wordsOf_append_sep (by decide) t (joinSpace (t' :: rest)),
        wordsOf_of_all ht.1 ht.2, ih (fun w hw => h w (List.mem_cons_of_mem t hw))]
      rfl

theorem mem_tokenizeL {l : List Char} {u : List Char} (h : u ∈ tokenizeL l) :
    u ≠ [] ∧ (∀ c ∈ u, isWordChar c = true) ∧ u.map lowerChar = u := by
  rcases List.mem_map.mp h with ⟨w, hw, rfl⟩
  obtain ⟨hne, hword⟩ := mem_wordsOf hw
  refine ⟨by simpa using hne, ?_, ?_⟩
  · intro c hc
    rcases List.mem_map.mp hc with ⟨c0, hc0, rfl⟩
    exact isWordChar_lowerChar (hword c0 hc0)
  · rw [List.map_map]
    calc w.map (lowerChar ∘ lowerChar) = w.map lowerChar :=
          List.map_congr_left (fun c _ => lowerChar_idem c)
      _ = w.map lowerChar := rfl

/-- C7: the text normalizer is deterministic, total and idempotent —
re-tokenizing the space-joined token list of any string yields the same
token list (`tokenizeL` is a total computable Lean function, so determinism
and totality over arbitrary Unicode input hold by construction). -/
theorem tokenize_idempotent (s : String) :
    tokenizeL (joinSpace (tokenizeL s.data)) = tokenizeL s.data := by
  have hprops : ∀ w ∈ tokenizeL s.data, w ≠ [] ∧ ∀ c ∈ w, isWordChar c = true :=
    fun w hw => ⟨(mem_tokenizeL hw).1, (mem_tokenizeL hw).2.1⟩
  show (wordsOf (joinSpace (tokenizeL s.data))).map (List.map lowerChar) = tokenizeL s.data
  rw [wordsOf_joinSpace hprops]
  calc (tokenizeL s.data).map (List.map lowerChar)
      = (tokenizeL s.data).map id :=
        List.map_congr_left (fun w hw => (mem_tokenizeL hw).2.2)
    _ = tokenizeL s.data := List.map_id _

/-! ## Match scorer — `score_match` (bot_spotify.py lines 79–109) -/

/-- One step of `re.findall(r"\(([^)]+)\)", s)`: after an opening `(`, the
run of non-`)` characters (the group) and the text after the closing `)`,
or `none` when the group is empty or `)` never occurs (no match at this
position). -/
def parenSplit (rest : List Char) : Option (List Char × List Char) :=
  match rest.dropWhile (fun d => !(d == ')')) with
  | ')' :: tail =>
    if (rest.takeWhile (fun d => !(d == ')'))).isEmpty then none
    else some (rest.takeWhile (fun d => !(d == ')')), tail)
  | _ => none

theorem parenSplit_parts {rest content tail : List Char}
    (h : parenSplit rest = some (content, tail)) :
    content = rest.takeWhile (fun d => !(d == ')')) ∧
      rest.dropWhile (fun d => !(d == ')')) = ')' :: tail := by
  unfold parenSplit at h
  split at h
  · rename_i tail2 heq
    split at h
    · exact absurd h (by simp)
    · simp only [Option.some.injEq, Prod.mk.injEq] at h
      exact ⟨h.1.symm, by rw [heq, h.2]⟩
  · simp at h

theorem parenSplit_decomp {rest content tail : List Char}
    (h : parenSplit rest = some (content, tail)) :
    rest = content ++ ')' :: tail := by
  obtain ⟨h1, h2⟩ := parenSplit_parts h
  conv_lhs => rw [← List.takeWhile_append_dropWhile (fun d => !(d == ')')) rest]
  rw [← h1, h2]

theorem parenSplit_length {rest content tail : List Char}
    (h : parenSplit rest = some (content, tail)) : tail.length < rest.length := by
  rw [parenSplit_decomp h]
  simp only [List.length_append, List.length_cons]
  omega

/-- Fuel-indexed worker for `parenContents` (structural recursion on the
fuel so that the kernel can evaluate it). -/
def parenGo : Nat → List Char → List (List Char)
  | _, [] => []
  | 0, _ :: _ => []
  | fuel + 1, c :: rest =>
    if c = '(' then
      match parenSplit rest with
      | some (content, tail) => content :: parenGo fuel tail
      | none => parenGo fuel rest
    else parenGo fuel rest

/-- Contents of the parenthesised groups `re.findall(r"\(([^)]+)\)", s)`:
scanning left to right, each `(` followed by a nonempty run of non-`)`
characters and a closing `)` yields a group; scanning resumes after the
closing `)` on a match and right after the `(` otherwise. -/
def parenContents (l : List Char) : List (List Char) :=
  parenGo l.length l

theorem parenGo_eq : ∀ (n : Nat) (l : List Char), l.length ≤ n →
    parenGo n l = parenContents l
  | 0, [] => fun _ => rfl
  | 0, _ :: _ => by
    intro h
    simp at h
  | _ + 1, [] => fun _ => rfl
  | n + 1, c :: rest => by
    intro h
    have hrest : rest.length ≤ n := by simpa using h
    show parenGo (n + 1) (c :: rest) = parenGo (c :: rest).length (c :: rest)
    simp only [parenGo, List.length_cons]
    by_cases hc : c = '('
    · rw [if_pos hc, if_pos hc]
      rcases hps : parenSplit rest with _ | ⟨content, tail⟩
      · dsimp only
        rw [parenGo_eq n rest hrest, parenGo_eq rest.length rest (Nat.le_refl _)]
      · dsimp only
        have htail : tail.length ≤ rest.length :=
          Nat.le_of_lt (parenSplit_length hps)
        rw [parenGo_eq n tail (le_trans htail hrest),
          parenGo_eq rest.length tail htail]
    · rw [if_neg hc, if_neg hc,
        parenGo_eq n rest hrest, parenGo_eq rest.length rest (Nat.le_refl _)]
termination_by n l => n
decreasing_by
  all_goals omega

theorem parenContents_nil : parenContents [] = [] := rfl

theorem parenContents_cons_not {c : Char} (hc : c ≠ '(') (rest : List Char) :
    parenContents (c :: rest) = parenContents rest := by
  show parenGo (rest.length + 1) (c :: rest) = parenContents rest
  simp only [parenGo, if_neg hc]
  exact parenGo_eq rest.length rest (Nat.le_refl _)

theorem parenContents_cons_some {rest content tail : List Char}
    (hps : parenSplit rest = some (content, tail)) :
    parenContents ('(' :: rest) = content :: parenContents tail := by
  show parenGo (rest.length + 1) ('(' :: rest) = _
  simp only [parenGo, hps]
  rw [if_true]
  congr 1
  exact parenGo_eq rest.length tail (Nat.le_of_lt (parenSplit_length hps))

theorem parenContents_cons_none {rest : List Char}
    (hps : parenSplit rest = none) :
    parenContents ('(' :: rest) = parenContents rest := by
  show parenGo (rest.length + 1) ('(' :: rest) = parenContents rest
  simp only [parenGo, hps]
  rw [if_true]
  exact parenGo_eq rest.length rest (Nat.le_refl _)

/-- The five version flag words of `score_match`. -/
def flagWords : List (List Char) :=
  ["live".data, "remix".data, "karaoke".data, "version".data, "acoustic".data]

/-- `any(f in s for f in flags)` over a token set. -/
def hasFlag (s : Finset (List Char)) : Bool :=
  flagWords.any (fun f => decide (f ∈ s))

/-- The union of the token sets of all artist names: the set `a` built by
the `for x in artists: a |= set(tokenize(x))` loop. -/
def artistTokSet (artists : List String) : Finset (List Char) :=
  artists.foldl (fun acc x => acc ∪ (tokenizeL x.data).toFinset) ∅

/-- Number of 0.25-bonus hits: one per token occurrence inside a
parenthesised group of the query that lies in the title or artist token
set (the Python loop adds 0.25 once per such occurrence). -/
def parenHits (query : String) (t a : Finset (List Char)) : ℕ :=
  (((parenContents query.data).map tokenizeL).flatten).countP
    (fun tok => decide (tok ∈ t) || decide (tok ∈ a))

/-- All terms of `score_match` except the version-flag penalty: title-token
overlap, half-weighted artist-token overlap, quarter-weighted paren hits,
and the 0.3 first-artist bonus. -/
def scoreSansPenalty (query title a0 : String) (rest : List String) : ℚ :=
  let q := tokSet query
  let t := tokSet title
  let a := artistTokSet (a0 :: rest)
  ((q ∩ t).card : ℚ) + (1 / 2) * ((q ∩ a).card : ℚ)
    + (1 / 4) * (parenHits query t a : ℚ)
    + (if tokSet a0 ∩ q = ∅ then 0 else 3 / 10)

/-- `score_match(query, title, artists)` for a nonempty artist list
`a0 :: rest` (the code reads `artists[0]` unconditionally; `scoreMatchOpt`
models the empty-list IndexError). The sequential float updates of the
Python code are one exact rational sum here. -/
def score_match (query title a0 : String) (rest : List String) : ℚ :=
  scoreSansPenalty query title a0 rest +
    (if hasFlag (tokSet query) = false ∧ hasFlag (tokSet title) = true
      then -(3 / 4 : ℚ) else 0)

/-- `score_match` over an arbitrary artists list, as called by
`search_track`: evaluating `tokenize(artists[0])` on an empty list raises
IndexError, modelled by `none`. -/
def scoreMatchOpt (query title : String) : List String → Option ℚ
  | [] => none
  | a0 :: rest => some (score_match query title a0 rest)

theorem scoreSansPenalty_nonneg (query title a0 : String) (rest : List String) :
    0 ≤ scoreSansPenalty query title a0 rest := by
  unfold scoreSansPenalty
  dsimp only
  have h1 : (0 : ℚ) ≤ ((tokSet query ∩ tokSet title).card : ℚ) := by positivity
  have h2 : (0 : ℚ) ≤ (1 / 2) * (((tokSet query ∩ artistTokSet (a0 :: rest)).card : ℚ)) := by
    positivity
  have h3 : (0 : ℚ) ≤ (1 / 4) *
      ((parenHits query (tokSet title) (artistTokSet (a0 :: rest))) : ℚ) := by positivity
  split <;> simp <;> linarith

theorem score_match_lb (query title a0 : String) (rest : List String) :
    -(3 / 4 : ℚ) ≤ score_match query title a0 rest := by
  unfold score_match
  have h := scoreSansPenalty_nonneg query title a0 rest
  split <;> linarith

theorem parenContents_sound : ∀ {l p : List Char}, p ∈ parenContents l →
    ∃ pre post, l = pre ++ '(' :: (p ++ ')' :: post)
  | [], p => by
    intro h
    rw [parenContents_nil] at h
    simp at h
  | c :: rest, p => by
    intro h
    by_cases hc : c = '('
    · subst hc
      rcases hps : parenSplit rest with _ | ⟨content, tail⟩
      · rw [parenContents_cons_none hps] at h
        obtain ⟨pre, post, hpp⟩ := parenContents_sound h
        exact ⟨'(' :: pre, post, by rw [hpp]; simp⟩
      · rw [parenContents_cons_some hps] at h
        rcases List.mem_cons.mp h with rfl | h
        · exact ⟨[], tail, by rw [parenSplit_decomp hps]; simp⟩
        · obtain ⟨pre, post, hpp⟩ := parenContents_sound h
          refine ⟨'(' :: content ++ ')' :: pre, post, ?_⟩
          rw [parenSplit_decomp hps, hpp]
          simp
    · rw [parenContents_cons_not hc rest] at h
      obtain ⟨pre, post, hpp⟩ := parenContents_sound h
      exact ⟨c :: pre, post, by rw [hpp]; simp⟩
termination_by l p => l.length
decreasing_by
  all_goals simp only [List.length_cons]
  all_goals first
    | exact Nat.lt_succ_of_lt (parenSplit_length hps)
    | omega

theorem parenTok_mem_tokenizeL {l tok : List Char}
    (h : tok ∈ ((parenContents l).map tokenizeL).flatten) : tok ∈ tokenizeL l := by
  rcases List.mem_flatten.mp h with ⟨ts, hts, htok⟩
  rcases List.mem_map.mp hts with ⟨p, hp, rfl⟩
  obtain ⟨pre, post, rfl⟩ := parenContents_sound hp
  rcases List.mem_map.mp htok with ⟨w, hw, rfl⟩
  have hws : wordsOf (pre ++ '(' :: (p ++ ')' :: post))
      = wordsOf pre ++ (wordsOf p ++ wordsOf post) := by
    rw [wordsOf_append_sep (by decide) pre (p ++ ')' :: post),
      wordsOf_append_sep (by decide) p post]
  show List.map lowerChar w ∈ (wordsOf (pre ++ '(' :: (p ++ ')' :: post))).map (List.map lowerChar)
  rw [hws]
  exact List.mem_map_of_mem _ (by simp [hw])

theorem tokenizeL_live_suffix (title : String) :
    tokenizeL (title ++ " (Live)").data = tokenizeL title.data ++ ["live".data] := by
  rw [String.data_append]
  have hsp : (" (Live)" : String).data = ' ' :: "(Live)".data := rfl
  rw [hsp]
  show (wordsOf (title.data ++ ' ' :: "(Live)".data)).map (List.map lowerChar) = _
  rw [wordsOf_append_sep (by decide) title.data "(Live)".data, List.map_append]
  congr 1

theorem tokSet_live_suffix (title : String) :
    tokSet (title ++ " (Live)") = insert "live".data (tokSet title) := by
  unfold tokSet
  rw [tokenizeL_live_suffix, List.toFinset_append]
  simp [Finset.insert_eq, Finset.union_comm]

/-- C9: `score_match` needs a nonempty artist list — on `a0 :: rest` it
returns the finite rational score (no error), while on `[]` the read of
`artists[0]` is an IndexError, modelled as `none`; under the nonempty
precondition that error branch is unreachable. -/
theorem score_match_requires_artist (q t a0 : String) (rest : List String) :
    scoreMatchOpt q t (a0 :: rest) = some (score_match q t a0 rest) ∧
      scoreMatchOpt q t [] = none :=
  ⟨rfl, rfl⟩

/-- C4: when the query has no flag word and a candidate title has one,
`score_match` is exactly the penalty-free score minus 0.75; consequently a
candidate differing only by a " (Live)" title suffix scores exactly 0.75
lower — hence strictly lower — than the non-live variant. -/
theorem scorer_flag_penalty (q a0 : String) (rest : List String)
    (hq : ∀ f ∈ flagWords, f ∉ tokSet q) :
    (∀ title, (∃ f ∈ flagWords, f ∈ tokSet title) →
      score_match q title a0 rest = scoreSansPenalty q title a0 rest - 3 / 4) ∧
    (∀ title, (∀ f ∈ flagWords, f ∉ tokSet title) →
      score_match q (title ++ " (Live)") a0 rest
          = score_match q title a0 rest - 3 / 4 ∧
        score_match q (title ++ " (Live)") a0 rest
          < score_match q title a0 rest) := by
  have hqf : hasFlag (tokSet q) = false := by
    simp only [hasFlag, List.any_eq_false]
    intro f hf
    simpa using hq f hf
  constructor
  · rintro title ⟨f, hf, hmem⟩
    have htf : hasFlag (tokSet title) = true := by
      simp only [hasFlag, List.any_eq_true]
      exact ⟨f, hf, by simpa using hmem⟩
    unfold score_match
    rw [if_pos ⟨hqf, htf⟩]
    ring
  · intro title ht
    have htf : hasFlag (tokSet title) = false := by
      simp only [hasFlag, List.any_eq_false]
      intro f hf
      simpa using ht f hf
    have hlivemem : "live".data ∈ flagWords := by decide
    have hliveq : "live".data ∉ tokSet q := hq _ hlivemem
    have ht' := tokSet_live_suffix title
    have ht'f : hasFlag (tokSet (title ++ " (Live)")) = true := by
      simp only [hasFlag, List.any_eq_true]
      exact ⟨"live".data, hlivemem, by rw [ht']; simp⟩
    have hinter : tokSet q ∩ tokSet (title ++ " (Live)") = tokSet q ∩ tokSet title := by
      rw [ht']
      exact Finset.inter_insert_of_not_mem hliveq
    have hph : parenHits q (tokSet (title ++ " (Live)")) (artistTokSet (a0 :: rest))
        = parenHits q (tokSet title) (artistTokSet (a0 :: rest)) := by
      unfold parenHits
      apply List.countP_congr
      intro tok htok
      have hqtok : tok ∈ tokSet q := by
        unfold tokSet
        exact List.mem_toFinset.mpr (parenTok_mem_tokenizeL htok)
      have hne : tok ≠ "live".data := fun he => hliveq (he ▸ hqtok)
      rw [ht']
      simp [Finset.mem_insert, hne]
    have hsans : scoreSansPenalty q (title ++ " (Live)") a0 rest
        = scoreSansPenalty q title a0 rest := by
      unfold scoreSansPenalty
      dsimp only
      rw [hinter, hph]
    have heq : score_match q (title ++ " (Live)") a0 rest
        = score_match q title a0 rest - 3 / 4 := by
      unfold score_match
      rw [if_pos ⟨hqf, ht'f⟩, if_neg (by simp [htf]), hsans]
      ring
    exact ⟨heq, by rw [heq]; linarith⟩

/-- Witness for the flag-penalty theorem at a concrete query and title. -/
theorem scorer_flag_penalty_witness :
    score_match "hola mundo" ("Hola Mundo" ++ " (Live)") "Foo" []
      < score_match "hola mundo" "Hola Mundo" "Foo" [] :=
  ((scorer_flag_penalty "hola mundo" "Foo" [] (by decide)).2
    "Hola Mundo" (by decide)).2

/-! ## Free-text candidate selection — `search_track` (bot_spotify.py lines 112–156) -/

/-- A catalog search result as consumed by the selection loop: its
identifier, its `name`, and the names of its `artists`. -/
structure Candidate where
  id : String
  name : String
  artists : List String
deriving DecidableEq

/-- Score of a candidate under a query; equal to `score_match` whenever its
artist list is nonempty (the `getD 0` default is never reached then). -/
def cscore (q : String) (c : Candidate) : ℚ :=
  (scoreMatchOpt q c.name c.artists).getD 0

/-- The selection loop of `search_track`: running best candidate and best
score, updated exactly when a strictly higher score appears
(`if s > best_score`); an IndexError raised inside `score_match` aborts
the loop (`none`). -/
def pickBest (q : String) : List Candidate → Option Candidate × ℚ →
    Option (Option Candidate × ℚ)
  | [], acc => some acc
  | it :: rest, (best, bs) =>
    match scoreMatchOpt q it.name it.artists with
    | none => none
    | some s =>
      if bs < s then pickBest q rest (some it, s)
      else pickBest q rest (best, bs)

/-- The free-text tail of `search_track`, given the `items` the catalog
search returned: empty items give no match; otherwise the loop runs from
`best = None, best_score = -1e9` and the best candidate is returned only
when `best_score >= 1.0` (`if best and best_score >= 1.0`). The outer
`Option` is a raised exception, the inner one the no-match result. -/
def searchFreeText (q : String) (items : List Candidate) : Option (Option Candidate) :=
  if items.isEmpty then some none
  else
    match pickBest q items (none, -(10 ^ 9 : ℚ)) with
    | none => none
    | some (best, bs) =>
      some (match best with
        | some b => if (1 : ℚ) ≤ bs then some b else none
        | none => none)

theorem cscore_eq (q : String) (c : Candidate) {a0 : String} {as : List String}
    (hca : c.artists = a0 :: as) : cscore q c = score_match q c.name a0 as := by
  unfold cscore
  rw [hca]
  rfl

theorem cscore_lb (q : String) {c : Candidate} (h : c.artists ≠ []) :
    -(3 / 4 : ℚ) ≤ cscore q c := by
  rcases hca : c.artists with _ | ⟨a0, as⟩
  · exact absurd hca h
  · rw [cscore_eq q c hca]
    exact score_match_lb q c.name a0 as

theorem pickBest_spec (q : String) : ∀ (items : List Candidate)
    (b0 : Option Candidate) (s0 : ℚ), (∀ c ∈ items, c.artists ≠ []) →
    (pickBest q items (b0, s0) = some (b0, s0) ∧ ∀ c ∈ items, cscore q c ≤ s0) ∨
    (∃ i : Fin items.length,
      pickBest q items (b0, s0)
          = some (some (items.get i), cscore q (items.get i)) ∧
      s0 < cscore q (items.get i) ∧
      (∀ c ∈ items, cscore q c ≤ cscore q (items.get i)) ∧
      (∀ j : Fin items.length, j.val < i.val →
        cscore q (items.get j) < cscore q (items.get i))) := by
  intro items
  induction items with
  | nil =>
    intro b0 s0 _
    left
    exact ⟨rfl, by simp⟩
  | cons it rest ih =>
    intro b0 s0 hart
    have hit : it.artists ≠ [] := hart it (by simp)
    obtain ⟨a0, as, hca⟩ : ∃ a0 as, it.artists = a0 :: as := by
      rcases hx : it.artists with _ | ⟨a0, as⟩
      · exact absurd hx hit
      · exact ⟨a0, as, rfl⟩
    have hscore : scoreMatchOpt q it.name it.artists = some (cscore q it) := by
      rw [hca, cscore_eq q it hca]
      rfl
    have hrest : ∀ c ∈ rest, c.artists ≠ [] :=
      fun c hc => hart c (List.mem_cons_of_mem _ hc)
    have hstep : pickBest q (it :: rest) (b0, s0)
        = if s0 < cscore q it then pickBest q rest (some it, cscore q it)
          else pickBest q rest (b0, s0) := by
      rw [pickBest, hscore]
    by_cases hlt : s0 < cscore q it
    · rw [hstep, if_pos hlt]
      rcases ih (some it) (cscore q it) hrest with ⟨heq, hle⟩ | ⟨i, heq, hgt, hmax, hfirst⟩
      · right
        refine ⟨⟨0, by simp⟩, ?_, ?_, ?_, ?_⟩
        · simpa using heq
        · simpa using hlt
        · intro c hc
          rcases List.mem_cons.mp hc with rfl | hc
          · simp
          · simpa using hle c hc
        · intro j hj
          simp at hj
      · right
        refine ⟨⟨i.val + 1, by simp⟩, ?_, ?_, ?_, ?_⟩
        · simpa using heq
        · exact lt_trans hlt (by simpa using hgt)
        · intro c hc
          rcases List.mem_cons.mp hc with rfl | hc
          · exact le_of_lt (by simpa using hgt)
          · simpa using hmax c hc
        · intro j hj
          rcases j with ⟨jv, hjlt⟩
          rcases jv with _ | jv
          · simpa using hgt
          · have hjv : jv < i.val := by simpa using hj
            simpa using hfirst ⟨jv, by simpa using hjlt⟩ hjv
    · rw [hstep, if_neg hlt]
      have hle0 : cscore q it ≤ s0 := le_of_not_lt hlt
      rcases ih b0 s0 hrest with ⟨heq, hle⟩ | ⟨i, heq, hgt, hmax, hfirst⟩
      · left
        refine ⟨heq, ?_⟩
        intro c hc
        rcases List.mem_cons.mp hc with rfl | hc
        · exact hle0
        · exact hle c hc
      · right
        refine ⟨⟨i.val + 1, by simp⟩, ?_, ?_, ?_, ?_⟩
        · simpa using heq
        · simpa using hgt
        · intro c hc
          rcases List.mem_cons.mp hc with rfl | hc
          · exact le_trans hle0 (le_of_lt (by simpa using hgt))
          · simpa using hmax c hc
        · intro j hj
          rcases j with ⟨jv, hjlt⟩
          rcases jv with _ | jv
          · have hgt2 : s0 < cscore q (rest.get i) := by simpa using hgt
            have h3 : cscore q it < cscore q (rest.get i) := lt_of_le_of_lt hle0 hgt2
            simpa using h3
          · have hjv : jv < i.val := by simpa using hj
            simpa using hfirst ⟨jv, by simpa using hjlt⟩ hjv

/-- C1: on a nonempty candidate list (each entry carrying, as the catalog
always does, at least one artist) the free-text path of `search_track`
selects the first candidate attaining the strictly highest score — an
equal later score never displaces an earlier candidate — and returns it
exactly when that score meets the fixed threshold 1.0; below the
threshold it returns no match rather than an error. -/
theorem search_selects_best (q : String) (items : List Candidate)
    (h1 : items ≠ []) (h2 : ∀ c ∈ items, c.artists ≠ []) :
    ∃ i : Fin items.length,
      (∀ c ∈ items, cscore q c ≤ cscore q (items.get i)) ∧
      (∀ j : Fin items.length, j.val < i.val →
        cscore q (items.get j) < cscore q (items.get i)) ∧
      searchFreeText q items
        = some (if (1 : ℚ) ≤ cscore q (items.get i)
            then some (items.get i) else none) := by
  rcases pickBest_spec q items none (-(10 ^ 9 : ℚ)) h2 with
    ⟨heq, hle⟩ | ⟨i, heq, hgt, hmax, hfirst⟩
  · exfalso
    rcases items with _ | ⟨it, rest⟩
    · exact h1 rfl
    · have hlb := cscore_lb q (h2 it (by simp))
      have hub := hle it (by simp)
      have : -(3 / 4 : ℚ) ≤ -(10 ^ 9 : ℚ) := le_trans hlb hub
      norm_num at this
  · refine ⟨i, hmax, hfirst, ?_⟩
    unfold searchFreeText
    rw [if_neg (by simpa [List.isEmpty_iff] using h1), heq]

/-- Witness for the selection theorem: a single exact-match candidate is
accepted (score 2 ≥ 1). -/
theorem search_selects_best_witness :
    searchFreeText "hola mundo" [⟨"t1", "Hola Mundo", ["Foo"]⟩]
      = some (some ⟨"t1", "Hola Mundo", ["Foo"]⟩) := by
  obtain ⟨i, hmax, hfirst, heq⟩ :=
    search_selects_best "hola mundo" [⟨"t1", "Hola Mundo", ["Foo"]⟩]
      (by simp) (by simp)
  have hget : ([⟨"t1", "Hola Mundo", ["Foo"]⟩] : List Candidate).get i
      = ⟨"t1", "Hola Mundo", ["Foo"]⟩ := by
    rcases i with ⟨iv, hiv⟩
    have h1 : iv = 0 := by
      simp only [List.length_cons, List.length_nil] at hiv
      omega
    subst h1
    rfl
  have hsc : cscore "hola mundo" ⟨"t1", "Hola Mundo", ["Foo"]⟩ = 2 := by
    rw [cscore_eq "hola mundo" ⟨"t1", "Hola Mundo", ["Foo"]⟩ rfl]
    unfold score_match scoreSansPenalty
    dsimp only
    have e1 : (tokSet "hola mundo" ∩ tokSet "Hola Mundo").card = 2 := by decide
    have e2 : (tokSet "hola mundo" ∩ artistTokSet ["Foo"]).card = 0 := by decide
    have e3 : parenHits "hola mundo" (tokSet "Hola Mundo") (artistTokSet ["Foo"]) = 0 := by
      decide
    have e4 : hasFlag (tokSet "Hola Mundo") = false := by decide
    have e5 : tokSet "Foo" ∩ tokSet "hola mundo" = ∅ := by decide
    rw [e1, e2, e3, if_pos e5, if_neg (by simp [e4])]
    norm_num
  rw [heq, hget, hsc, if_pos (by norm_num)]

/-! ## Playlist membership — `track_in_playlist` (bot_spotify.py lines 158–174) -/

/-- The page-scan loop of `track_in_playlist`: the paginated playlist read
is the finite list of pages the API returns, ending with the page whose
`next` cursor is absent; each item is the value of
`it.get("track", {}).get("id")` (possibly `None`). The loop returns true on
the first matching item and false after the last page. -/
def track_in_playlist (tid : String) : List (List (Option String)) → Bool
  | [] => false
  | page :: rest =>
    if page.any (fun it => it == some tid) then true
    else track_in_playlist tid rest

theorem track_in_playlist_any (tid : String) (pages : List (List (Option String))) :
    track_in_playlist tid pages
      = pages.any (fun page => page.any (fun it => it == some tid)) := by
  induction pages with
  | nil => rfl
  | cons page rest ih =>
    by_cases hp : page.any (fun it => it == some tid) = true
    · simp [track_in_playlist, hp]
    · simp only [Bool.not_eq_true] at hp
      simp [track_in_playlist, hp, ih]

theorem track_in_playlist_short_circuit (tid : String)
    (pre : List (List (Option String))) (page : List (Option String))
    (post : List (List (Option String)))
    (h : page.any (fun it => it == some tid) = true) :
    track_in_playlist tid (pre ++ page :: post) = true := by
  induction pre with
  | nil => simp [track_in_playlist, h]
  | cons p ps ih =>
    rw [List.cons_append]
    show (if p.any (fun it => it == some tid) then true
      else track_in_playlist tid (ps ++ page :: post)) = true
    split
    · rfl
    · exact ih

/-- C2: `track_in_playlist` over any finite page sequence — the last page
being the one without a continuation cursor — terminates (it is a total
function of the page list), equals "some page contains the id", is true as
soon as one page matches whatever pages follow, and is false on the empty
collection. -/
theorem contains_spec (tid : String) (pages : List (List (Option String))) :
    (track_in_playlist tid pages
        = pages.any (fun page => page.any (fun it => it == some tid))) ∧
    track_in_playlist tid [] = false ∧
    (∀ pre page post, page.any (fun it => it == some tid) = true →
      track_in_playlist tid (pre ++ page :: post) = true) :=
  ⟨track_in_playlist_any tid pages, rfl,
    fun pre page post h => track_in_playlist_short_circuit tid pre page post h⟩

/-- Witness for the membership theorem: a match on the second page
short-circuits to true; the empty collection gives false. -/
theorem contains_spec_witness :
    track_in_playlist "x" [[some "a"], [none, some "x"]] = true ∧
      track_in_playlist "x" [] = false :=
  ⟨(contains_spec "x" []).2.2 [[some "a"]] [none, some "x"] [] (by decide),
    (contains_spec "x" []).2.1⟩

/-! ## Reconciler add path — `handle_text` (bot_spotify.py lines 253–273) -/

inductive AddOutcome
  | added
  | alreadyPresent
deriving DecidableEq

/-- The add path of `handle_text` after resolution (lines 268–273):
membership check, then either the already-present reply with no mutation,
or exactly one `add_to_playlist` call (the added track lands at the end of
the playlist, i.e. of the page sequence). Result: outcome, the collection
afterwards, and the number of mutating calls issued. -/
def handle_text_add (pages : List (List (Option String))) (tid : String) :
    AddOutcome × List (List (Option String)) × Nat :=
  if track_in_playlist tid pages then (.alreadyPresent, pages, 0)
  else (.added, pages ++ [[some tid]], 1)

/-- C3: the add path is idempotent — a present id yields AlreadyPresent
with no mutation; an absent id yields Added with exactly one mutation, and
repeating the same add on the resulting collection yields AlreadyPresent
with no further mutation (one mutating call in total). -/
theorem add_idempotent (pages : List (List (Option String))) (tid : String) :
    (track_in_playlist tid pages = true →
      handle_text_add pages tid = (.alreadyPresent, pages, 0)) ∧
    (track_in_playlist tid pages = false →
      handle_text_add pages tid = (.added, pages ++ [[some tid]], 1) ∧
      handle_text_add (pages ++ [[some tid]]) tid
        = (.alreadyPresent, pages ++ [[some tid]], 0)) := by
  constructor
  · intro h
    simp [handle_text_add, h]
  · intro h
    have hmem : track_in_playlist tid (pages ++ [[some tid]]) = true :=
      track_in_playlist_short_circuit tid pages [some tid] [] (by simp)
    exact ⟨by simp [handle_text_add, h], by simp [handle_text_add, hmem]⟩

/-- Witness for add idempotence: adding to the empty collection, then
adding the same id again. -/
theorem add_idempotent_witness :
    handle_text_add [] "x" = (.added, [[some "x"]], 1) ∧
      handle_text_add [[some "x"]] "x" = (.alreadyPresent, [[some "x"]], 0) := by
  have h := (add_idempotent [] "x").2 (by decide)
  exact ⟨h.1, by simpa using h.2⟩

/-! ## Reconciler remove path — `cmd_remove` (bot_spotify.py lines 228–251) -/

inductive RemoveOutcome
  | notFound
  | notPresent
  | removed
  | removedApprox
deriving DecidableEq

/-- The remove path of `cmd_remove` after resolution: `res` is the
resolved track id (`none` when `search_track` found nothing). Only exact
id membership leads to removal (the DELETE removes every occurrence of the
uri); nothing else in the code mutates — in particular there is no fuzzy
fallback, so `removedApprox`, the outcome the spec describes for one, is
never produced. Result: outcome, collection afterwards, mutating calls. -/
def cmd_remove_core (pages : List (List (Option String))) (res : Option String) :
    RemoveOutcome × List (List (Option String)) × Nat :=
  match res with
  | none => (.notFound, pages, 0)
  | some tid =>
    if track_in_playlist tid pages then
      (.removed, pages.map (List.filter (fun it => !(it == some tid))), 1)
    else (.notPresent, pages, 0)

/-- Modelled from the spec: the code has no `bestFuzzyMatch`; spec §4.6
describes scanning every entry label and scoring it against the query with
an edit-distance-based similarity ratio in [0, 1], retaining the maximum.
`editDist` is the standard Levenshtein distance used to state that
claim. -/
def editDist : List Char → List Char → Nat
  | [], ys => ys.length
  | xs, [] => xs.length
  | x :: xs, y :: ys =>
    if x = y then editDist xs ys
    else 1 + min (editDist xs (y :: ys)) (min (editDist (x :: xs) ys) (editDist xs ys))
termination_by a b => a.length + b.length
decreasing_by
  all_goals simp only [List.length_cons]
  all_goals omega

/-- Modelled from the spec: edit-distance similarity ratio in [0, 1]
(1 for identical strings). -/
def similarity (a b : List Char) : ℚ :=
  if a.length = 0 ∧ b.length = 0 then 1
  else 1 - (editDist a b : ℚ) / ((max a.length b.length : ℕ) : ℚ)

/-- Modelled from the spec: the maximal similarity of any collection entry
label against the query (`(none, 0.0)` on an empty collection). -/
def bestFuzzyScore (labels : List String) (q : String) : ℚ :=
  (labels.map (fun lab => similarity lab.data q.data)).foldr max 0

/-- The removal behaviour claimed for the engine: whenever the resolved id
is absent from the collection but some collection label fuzzily matches
the query above the ≈0.6 threshold, the outcome is an approximate
removal. -/
def removeFuzzyClaim : Prop :=
  ∀ (pages : List (List (Option String))) (labels : List String) (q tid : String),
    track_in_playlist tid pages = false →
    bestFuzzyScore labels q > 3 / 5 →
    (cmd_remove_core pages (some tid)).1 = RemoveOutcome.removedApprox

/-- C5 counterexample: with collection pages [[some "a"]] (labelled "x"),
query "x" and resolved id "b", the fuzzy score is 1 > 0.6 yet the code
answers NotPresent, never an approximate Removed — `cmd_remove` has no
fuzzy fallback. -/
theorem remove_no_fuzzy_counterexample : ¬ removeFuzzyClaim := by
  intro h
  have h1 : track_in_playlist "b" [[some "a"]] = false := by decide
  have e1 : editDist ['x'] ['x'] = 0 := by simp [editDist]
  have e2 : similarity "x".data "x".data = 1 := by
    have hx : ("x" : String).data = ['x'] := rfl
    rw [hx]
    unfold similarity
    rw [if_neg (by simp), e1]
    norm_num
  have h2 : bestFuzzyScore ["x"] "x" > 3 / 5 := by
    have e3 : bestFuzzyScore ["x"] "x" = 1 := by
      show max (similarity "x".data "x".data) 0 = 1
      rw [e2]
      norm_num
    rw [e3]
    norm_num
  have h3 := h [[some "a"]] ["x"] "x" "b" h1 h2
  have h4 : (cmd_remove_core [[some "a"]] (some "b")).1 = RemoveOutcome.notPresent := by
    decide
  rw [h4] at h3
  exact absurd h3 (by decide)

/-- C5 amended: on the remove path, a query resolving to an id that is not
in the collection ends in NotPresent with no mutating call — the code has
no fuzzy-match fallback — and an unresolved query ends in NotFound. -/
theorem remove_not_present (pages : List (List (Option String))) (tid : String)
    (h : track_in_playlist tid pages = false) :
    cmd_remove_core pages (some tid) = (.notPresent, pages, 0) ∧
      cmd_remove_core pages none = (.notFound, pages, 0) := by
  constructor
  · simp [cmd_remove_core, h]
  · rfl

/-- Witness for the amended removal theorem. -/
theorem remove_not_present_witness :
    cmd_remove_core [[some "a"]] (some "b") = (.notPresent, [[some "a"]], 0) :=
  (remove_not_present [[some "a"]] "b" (by decide)).1

/-! ## Query decomposition — free-text path of `search_track`
(bot_spotify.py lines 131–148) -/

/-- The decomposition `search_track` applies to free text before querying
the catalog: none. The raw text is sent unchanged as the `q` request
parameter and passed unchanged to `score_match`; equivalently every input
is all title with an empty artist list. -/
def decompose (q : String) : String × List String := (q, [])

/-- The decomposer behaviour the spec claims on its three examples. -/
def decomposeClaim : Prop :=
  decompose "Title - Artist" = ("Title", ["Artist"]) ∧
  decompose "Title, Artist1 y Artist2" = ("Title", ["Artist1", "Artist2"]) ∧
  decompose "OnlyTitle" = ("OnlyTitle", [])

/-- C6 counterexample: the code never splits "Title - Artist" — the whole
string stays the query and no artist list is formed. -/
theorem decompose_counterexample : ¬ decomposeClaim := by
  intro h
  exact absurd h.1 (by decide)

/-- C6 amended: the code performs no decomposition — every free text maps
to itself as title with an empty artist list, so the no-separator example
holds and the dash and comma examples return the full text unsplit. -/
theorem decompose_amended :
    (∀ q : String, decompose q = (q, [])) ∧
    decompose "Title - Artist" = ("Title - Artist", []) ∧
    decompose "Title, Artist1 y Artist2" = ("Title, Artist1 y Artist2", []) ∧
    decompose "OnlyTitle" = ("OnlyTitle", []) :=
  ⟨fun _ => rfl, rfl, rfl, rfl⟩

/-! ## Token cache — `get_access_token` (bot_spotify.py lines 32–54) -/

structure TokenCache where
  access : Option String
  exp : ℚ
deriving DecidableEq

/-- Python truthiness of `_SPOTIFY_TOKEN_CACHE["access"]` (initially
`None`; an empty string is also falsy). -/
def cacheTruthy : Option String → Bool
  | none => false
  | some s => !(s == "")

/-- `get_access_token` over explicit state: `now` is `time.time()`,
`fresh` the `access_token` a successful refresh request returns. Result:
the returned token, the cache afterwards, and whether a refresh request
was issued. -/
def get_access_token (now : ℚ) (fresh : String) (cache : TokenCache) :
    String × TokenCache × Bool :=
  if cacheTruthy cache.access && decide (now < cache.exp) then
    (cache.access.getD "", cache, false)
  else
    (fresh, ⟨some fresh, now + 3300⟩, true)

/-- C10: after every successful `get_access_token` call the cache holds
the returned token with an expiry strictly in the future (`now + 3300` on
refresh), and while a set, unexpired token is cached the call returns it
without issuing a refresh. -/
theorem token_cache_invariant (now : ℚ) (fresh : String) (cache : TokenCache) :
    ((get_access_token now fresh cache).2.1.access
        = some (get_access_token now fresh cache).1) ∧
    now < (get_access_token now fresh cache).2.1.exp ∧
    ((get_access_token now fresh cache).2.2 = true →
      (get_access_token now fresh cache).2.1.exp = now + 3300) ∧
    (cacheTruthy cache.access = true → now < cache.exp →
      (get_access_token now fresh cache).2.2 = false ∧
      (get_access_token now fresh cache).2.1 = cache ∧
      some (get_access_token now fresh cache).1 = cache.access) := by
  by_cases hc : cacheTruthy cache.access = true ∧ now < cache.exp
  · obtain ⟨h1, h2⟩ := hc
    have hcond : (cacheTruthy cache.access && decide (now < cache.exp)) = true := by
      simp [h1, h2]
    have haccess : cache.access = some (cache.access.getD "") := by
      rcases ha : cache.access with _ | s
      · rw [ha] at h1
        simp [cacheTruthy] at h1
      · rfl
    unfold get_access_token
    rw [if_pos hcond]
    exact ⟨haccess, h2, by simp, fun _ _ => ⟨rfl, rfl, haccess.symm⟩⟩
  · have hcond : (cacheTruthy cache.access && decide (now < cache.exp)) = false := by
      cases h1 : cacheTruthy cache.access
      · simp
      · have h2 : ¬ now < cache.exp := fun h2 => hc ⟨h1, h2⟩
        simp [h2]
    unfold get_access_token
    rw [if_neg (by simp [hcond])]
    refine ⟨rfl, by show now < now + 3300; linarith, fun _ => rfl, ?_⟩
    intro h1 h2
    exact absurd ⟨h1, h2⟩ hc

/-- Witness for the token-cache theorem: an unexpired cached token is
returned without a refresh. -/
theorem token_cache_invariant_witness :
    (get_access_token 5 "new" ⟨some "tok", 10⟩).2.2 = false ∧
      (get_access_token 5 "new" ⟨some "tok", 10⟩).1 = "tok" := by
  have h := (token_cache_invariant 5 "new" ⟨some "tok", 10⟩).2.2.2
    (by decide) (by norm_num)
  exact ⟨h.1, by simpa using h.2.2⟩

/-! ## Query classifier — `extract_track_id_from_url`
(bot_spotify.py lines 57–72) -/

/-- The Python whitespace characters `str.strip` removes. -/
def isPySpace (c : Char) : Bool :=
  c == ' ' || c == '\t' || c == '\n' || c == '\r'
    || c == Char.ofNat 11 || c == Char.ofNat 12

/-- `text.strip()`. -/
def pyStrip (l : List Char) : List Char :=
  ((l.dropWhile isPySpace).reverse.dropWhile isPySpace).reverse

/-- Python `pat in text` (substring containment). -/
def containsPat : List Char → List Char → Bool
  | pat, [] => pat.isEmpty
  | pat, c :: rest => pat.isPrefixOf (c :: rest) || containsPat pat rest

/-- The text after the first occurrence of `pat`, or `none` when `pat`
does not occur: `text.split(pat)[1]` is this chunk cut at the next
occurrence (`none` is the IndexError). -/
def afterFirst (pat : List Char) : List Char → Option (List Char)
  | [] => if pat.isEmpty then some [] else none
  | c :: rest =>
    if pat.isPrefixOf (c :: rest) then some ((c :: rest).drop pat.length)
    else afterFirst pat rest

/-- The text before the next occurrence of `pat` (all of it when `pat`
does not occur again). -/
def takeUntilPat (pat : List Char) : List Char → List Char
  | [] => []
  | c :: rest =>
    if pat.isPrefixOf (c :: rest) then []
    else c :: takeUntilPat pat rest

/-- Characters `urllib.parse` allows in a scheme after the leading
letter. -/
def isSchemeChar (c : Char) : Bool :=
  c.isAlphanum || c == '+' || c == '-' || c == '.'

/-- Scheme removal of `urllib.parse.urlparse`: when the text up to the
first `:` is a valid scheme name, the rest follows the colon. -/
def stripScheme (url : List Char) : List Char :=
  if decide ((url.takeWhile (fun c => !(c == ':'))).length < url.length)
      && !(url.takeWhile (fun c => !(c == ':'))).isEmpty
      && ((url.takeWhile (fun c => !(c == ':'))).headD ' ').isAlpha
      && (url.takeWhile (fun c => !(c == ':'))).all isSchemeChar
  then url.drop ((url.takeWhile (fun c => !(c == ':'))).length + 1)
  else url

/-- Netloc removal of `urlparse`: after a leading `//`, everything up to
the next `/` is the host. -/
def stripNetloc (rest : List Char) : List Char :=
  if ('/' :: '/' :: []).isPrefixOf rest
  then (rest.drop 2).dropWhile (fun c => !(c == '/'))
  else rest

/-- `urllib.parse.urlparse(url).path` for the inputs this program meets:
scheme and netloc removed, query and fragment cut off. -/
def urlparsePath (url : List Char) : List Char :=
  ((stripNetloc (stripScheme url)).takeWhile (fun c => !(c == '#'))).takeWhile
    (fun c => !(c == '?'))

/-- The character class of the URI regex `spotify:track:([A-Za-z0-9]+)`. -/
def isIdChar (c : Char) : Bool :=
  ('A' ≤ c && c ≤ 'Z') || ('a' ≤ c && c ≤ 'z') || ('0' ≤ c && c ≤ '9')

/-- `extract_track_id_from_url`: strip, then the link branch
(`"open.spotify.com/track/" in text`, with
`urlparse(text).path.split("/track/")[1].split("/")[0]` inside
`try/except` — the IndexError becomes `none`), else the
`re.match(r"spotify:track:([A-Za-z0-9]+)")` branch, else `none`. A pure
total function: no call leaves it. -/
def extract_track_id_from_url (s : String) : Option String :=
  let text := pyStrip s.data
  if containsPat "open.spotify.com/track/".data text then
    match afterFirst "/track/".data (urlparsePath text) with
    | none => none
    | some rest =>
      some (String.mk
        ((takeUntilPat "/track/".data rest).takeWhile (fun c => !(c == '/'))))
  else if ("spotify:track:".data).isPrefixOf text then
    match (text.drop 14).takeWhile isIdChar with
    | [] => none
    | g => some (String.mk g)
  else none

/-! ### Classifier lemmas -/

theorem isPrefixOf_append_self (pat rest : List Char) :
    pat.isPrefixOf (pat ++ rest) = true := by
  induction pat with
  | nil => simp [List.isPrefixOf]
  | cons p ps ih => simp [List.isPrefixOf, ih]

theorem isPrefixOf_mem {pat l : List Char} (h : pat.isPrefixOf l = true) :
    ∀ x ∈ pat, x ∈ l := by
  induction pat generalizing l with
  | nil => simp
  | cons p ps ih =>
    rcases l with _ | ⟨c, rest⟩
    · simp [List.isPrefixOf] at h
    · simp only [List.isPrefixOf, Bool.and_eq_true, beq_iff_eq] at h
      intro x hx
      rcases List.mem_cons.mp hx with rfl | hx
      · simp [h.1]
      · exact List.mem_cons_of_mem c (ih h.2 x hx)

theorem containsPat_mem {pat l : List Char} (h : containsPat pat l = true) :
    ∀ x ∈ pat, x ∈ l := by
  induction l with
  | nil =>
    simp only [containsPat, List.isEmpty_iff] at h
    simp [h]
  | cons c rest ih =>
    simp only [containsPat, Bool.or_eq_true] at h
    rcases h with h | h
    · exact isPrefixOf_mem h
    · exact fun x hx => List.mem_cons_of_mem c (ih h x hx)

theorem containsPat_middle (pat pre post : List Char) :
    containsPat pat (pre ++ (pat ++ post)) = true := by
  induction pre with
  | nil =>
    rcases pat with _ | ⟨p, ps⟩
    · rcases post with _ | ⟨c, cs⟩
      · rfl
      · simp [containsPat, List.isPrefixOf]
    · simp [containsPat, isPrefixOf_append_self]
  | cons x xs ih =>
    simp [containsPat, ih]

theorem not_contains_of_missing {pat l : List Char} {x : Char}
    (hx : x ∈ pat) (hl : x ∉ l) : containsPat pat l = false := by
  cases hcp : containsPat pat l
  · rfl
  · exact absurd (containsPat_mem hcp x hx) hl

theorem dropWhile_none {p : Char → Bool} {l : List Char}
    (h : ∀ c ∈ l, p c = false) : l.dropWhile p = l := by
  cases l with
  | nil => rfl
  | cons x xs => rw [List.dropWhile_cons, if_neg (by simp [h x (by simp)])]

theorem pyStrip_id {l : List Char} (h : ∀ c ∈ l, isPySpace c = false) :
    pyStrip l = l := by
  unfold pyStrip
  rw [dropWhile_none h,
    dropWhile_none (fun c hc => h c (List.mem_reverse.mp hc)),
    List.reverse_reverse]

theorem isIdChar_ne {c x : Char} (h : isIdChar c = true)
    (hx : isIdChar x = false) : c ≠ x := by
  intro he
  subst he
  rw [h] at hx
  simp at hx

theorem idchar_ne_pred {x : Char} (hx : isIdChar x = false) :
    ∀ c, isIdChar c = true → (!(c == x)) = true := by
  intro c h
  have hne : c ≠ x := isIdChar_ne h hx
  simp [hne]

theorem idchar_not_pyspace : ∀ c, isIdChar c = true → isPySpace c = false := by
  intro c h
  unfold isPySpace
  simp only [Bool.or_eq_false_iff, beq_eq_false_iff_ne]
  refine ⟨⟨⟨⟨⟨?_, ?_⟩, ?_⟩, ?_⟩, ?_⟩, ?_⟩ <;> exact isIdChar_ne h (by decide)

theorem all_append_pred {p : Char → Bool} {xs ys : List Char}
    (hx : ∀ c ∈ xs, p c = true) (hy : ∀ c ∈ ys, p c = true) :
    ∀ c ∈ xs ++ ys, p c = true := by
  intro c hc
  rcases List.mem_append.mp hc with h | h
  · exact hx c h
  · exact hy c h

theorem all_append_npred {p : Char → Bool} {xs ys : List Char}
    (hx : ∀ c ∈ xs, p c = false) (hy : ∀ c ∈ ys, p c = false) :
    ∀ c ∈ xs ++ ys, p c = false := by
  intro c hc
  rcases List.mem_append.mp hc with h | h
  · exact hx c h
  · exact hy c h

theorem drop_after_sep (x : Char) (A B : List Char) :
    (A ++ x :: B).drop (A.length + 1) = B := by
  induction A with
  | nil => simp
  | cons a as ih => simpa using ih

theorem takeUntilPat_track {l : List Char} (h : ∀ c ∈ l, (c == '/') = false) :
    takeUntilPat "/track/".data l = l := by
  induction l with
  | nil => rfl
  | cons c rest ih =>
    have hc : (c == '/') = false := h c (by simp)
    have hpre : ("/track/".data).isPrefixOf (c :: rest) = false := by
      show (('/' == c) && _) = false
      rw [show ('/' == c) = false from by
        cases hcc : c == '/'
        · simp only [beq_eq_false_iff_ne] at hcc ⊢
          exact fun he => hcc he.symm
        · rw [hcc] at hc
          simp at hc]
      rfl
    rw [takeUntilPat, if_neg (by simp [hpre]), ih (fun c hc => h c (by simp [hc]))]

theorem afterFirst_self (p : Char) (ps rest : List Char) :
    afterFirst (p :: ps) ((p :: ps) ++ rest) = some rest := by
  show afterFirst (p :: ps) (p :: (ps ++ rest)) = some rest
  rw [afterFirst, if_pos (by simpa using isPrefixOf_append_self (p :: ps) rest)]
  simp [drop_after_sep]

theorem stripScheme_https (id : List Char) :
    stripScheme ("https://open.spotify.com/track/".data ++ id)
      = "//open.spotify.com/track/".data ++ id := by
  have hassoc : "https://open.spotify.com/track/".data ++ id
      = "https".data ++ ':' :: ("//open.spotify.com/track/".data ++ id) := by
    show ("https".data ++ ':' :: "//open.spotify.com/track/".data) ++ id = _
    simp [List.append_assoc]
  unfold stripScheme
  rw [hassoc, takeWhile_append_stop (by decide),
    show ("https".data).takeWhile (fun c => !(c == ':')) = "https".data from by decide]
  rw [if_pos ?cond]
  case cond =>
    have h1 : ("https".data).length
        < ("https".data ++ ':' :: ("//open.spotify.com/track/".data ++ id)).length := by
      simp
    simp only [Bool.and_eq_true, decide_eq_true_eq]
    refine ⟨⟨⟨h1, ?_⟩, ?_⟩, ?_⟩ <;> decide
  exact drop_after_sep ':' "https".data _

theorem stripNetloc_spotify (id : List Char) :
    stripNetloc ("//open.spotify.com/track/".data ++ id)
      = "/track/".data ++ id := by
  have hassoc : "//open.spotify.com/track/".data ++ id
      = '/' :: '/' :: ("open.spotify.com".data ++ '/' :: ("track/".data ++ id)) := by
    show ('/' :: '/' :: ("open.spotify.com".data ++ '/' :: "track/".data)) ++ id = _
    simp [List.append_assoc]
  unfold stripNetloc
  rw [hassoc, if_pos (by simp [List.isPrefixOf])]
  show ("open.spotify.com".data ++ '/' :: ("track/".data ++ id)).dropWhile
      (fun c => !(c == '/')) = _
  rw [dropWhile_append_stop (by decide),
    show ("open.spotify.com".data).dropWhile (fun c => !(c == '/')) = [] from by decide]
  rfl

theorem urlparsePath_https (id : List Char) (h : ∀ c ∈ id, isIdChar c = true) :
    urlparsePath ("https://open.spotify.com/track/".data ++ id)
      = "/track/".data ++ id := by
  unfold urlparsePath
  rw [stripScheme_https, stripNetloc_spotify,
    takeWhile_of_all (all_append_pred (by decide)
      (fun c hc => idchar_ne_pred (by decide) c (h c hc))),
    takeWhile_of_all (all_append_pred (by decide)
      (fun c hc => idchar_ne_pred (by decide) c (h c hc)))]

/-- C8: the query classifier is a pure total function of the text — no
network call appears in it and nothing escapes it: the canonical link and
URI patterns yield the extracted identifier (the link branch's potential
IndexError is caught into `none`), and any text containing neither pattern
yields the no-identifier result `none`, never an error. -/
theorem classifier_total :
    (∀ id : String, id.data ≠ [] → (∀ c ∈ id.data, isIdChar c = true) →
      extract_track_id_from_url ("https://open.spotify.com/track/" ++ id)
        = some id) ∧
    (∀ id : String, id.data ≠ [] → (∀ c ∈ id.data, isIdChar c = true) →
      extract_track_id_from_url ("spotify:track:" ++ id) = some id) ∧
    (∀ s : String,
      containsPat "open.spotify.com/track/".data (pyStrip s.data) = false →
      ("spotify:track:".data).isPrefixOf (pyStrip s.data) = false →
      extract_track_id_from_url s = none) := by
  refine ⟨?_, ?_, ?_⟩
  · intro id hne hall
    unfold extract_track_id_from_url
    rw [String.data_append,
      pyStrip_id (all_append_npred (by decide)
        (fun c hc => idchar_not_pyspace c (hall c hc)))]
    rw [if_pos ?hin]
    case hin =>
      rw [show "https://open.spotify.com/track/".data ++ id.data
          = "https://".data ++ ("open.spotify.com/track/".data ++ id.data) by
        show ("https://".data ++ "open.spotify.com/track/".data) ++ id.data = _
        simp [List.append_assoc]]
      exact containsPat_middle _ _ _
    rw [urlparsePath_https id.data hall,
      show "/track/".data ++ id.data = ('/' :: "track/".data) ++ id.data from rfl,
      afterFirst_self]
    show some (String.mk ((takeUntilPat "/track/".data id.data).takeWhile
      (fun c => !(c == '/')))) = some id
    rw [takeUntilPat_track (fun c hc => by
        have hcc := isIdChar_ne (hall c hc) (show isIdChar '/' = false by decide)
        simp [hcc]),
      takeWhile_of_all (fun c hc => idchar_ne_pred (by decide) c (hall c hc))]
  · intro id hne hall
    unfold extract_track_id_from_url
    rw [String.data_append,
      pyStrip_id (all_append_npred (by decide)
        (fun c hc => idchar_not_pyspace c (hall c hc)))]
    rw [if_neg ?hnin]
    case hnin =>
      have hdot : containsPat "open.spotify.com/track/".data
          ("spotify:track:".data ++ id.data) = false := by
        apply not_contains_of_missing
          (show ('.' : Char) ∈ "open.spotify.com/track/".data by decide)
        intro hmem
        rcases List.mem_append.mp hmem with h | h
        · exact absurd h (by decide)
        · exact absurd (hall '.' h) (by decide)
      rw [Bool.not_eq_true]
      exact hdot
    rw [if_pos (isPrefixOf_append_self _ _)]
    rw [show (14 : ℕ) = ("spotify:track:".data).length from rfl, List.drop_left,
      takeWhile_of_all hall]
    rcases hid : id.data with _ | ⟨c, cs⟩
    · exact absurd hid hne
    · show some (String.mk (c :: cs)) = some id
      rw [← hid]
  · intro s h1 h2
    unfold extract_track_id_from_url
    rw [if_neg (by simp [h1]), if_neg (by simp [h2])]

/-- Witness for the classifier theorem at the canonical link, the URI
scheme, and a plain free-text query. -/
theorem classifier_total_witness :
    extract_track_id_from_url "https://open.spotify.com/track/abc" = some "abc" ∧
    extract_track_id_from_url "spotify:track:abc" = some "abc" ∧
    extract_track_id_from_url "hola mundo" = none := by
  obtain ⟨h1, h2, h3⟩ := classifier_total
  exact ⟨h1 "abc" (by decide) (by decide), h2 "abc" (by decide) (by decide),
    h3 "hola mundo" (by decide) (by decide)⟩

end BotSpotify
